import Mathlib

/-!
Verification of the chunking-and-reassembly core of the translator app
(`src/app.py`).  Text is modelled as `List Char`; the character budget is
modelled as `Int` (Python integers may be negative).  `chunk_text` and
`run_text_job` are shallow embeddings of the functions of the same names in
`src/app.py`; the helper `splitlinesKeepends` models the Python function
`str.splitlines(True)` (splitting on every Python line boundary, keeping the
terminators, with `"\r\n"` treated as a single terminator), and `pyStrip`
models Python `str.strip()` on the whitespace characters Python strips.
-/

namespace TranslatorApp

/-- The line-boundary characters recognised by Python `str.splitlines`:
LF, CR, VT, FF, FS, GS, RS, NEL, LINE SEPARATOR, PARAGRAPH SEPARATOR. -/
def isLineBreak (c : Char) : Bool :=
  c = '\n' || c = '\r' || c = Char.ofNat 0x0B || c = Char.ofNat 0x0C ||
  c = Char.ofNat 0x1C || c = Char.ofNat 0x1D || c = Char.ofNat 0x1E ||
  c = Char.ofNat 0x85 || c = Char.ofNat 0x2028 || c = Char.ofNat 0x2029

/-- Model of Python `text.splitlines(True)` (`keepends=True`): the list of
lines of `text`, each carrying its trailing terminator (the final line may
lack one); a `"\r\n"` pair is one terminator. -/
def splitlinesKeepends : List Char → List (List Char)
  | [] => []
  | c :: rest =>
    if isLineBreak c then
      match rest with
      | [] => (c :: []) :: []
      | c2 :: rest2 =>
        if c = '\r' ∧ c2 = '\n' then
          ('\r' :: '\n' :: []) :: splitlinesKeepends rest2
        else
          (c :: []) :: splitlinesKeepends (c2 :: rest2)
    else
      match splitlinesKeepends rest with
      | [] => (c :: []) :: []
      | l :: ls => (c :: l) :: ls

/-- The loop of `chunk_text` (`src/app.py:101-112`): `cur` is the list of
lines accumulated in the current buffer and `curLen` mirrors the `cur_len`
counter.  A full buffer is flushed (joined with no separator) before a line
that would overflow it is appended. -/
def chunkAux (maxChars : Int) : List (List Char) → List (List Char) → Nat → List (List Char)
  | [], cur, _ => if cur.isEmpty then [] else [cur.flatten]
  | line :: rest, cur, curLen =>
    if (curLen : Int) + (line.length : Int) > maxChars ∧ cur ≠ [] then
      cur.flatten :: chunkAux maxChars rest [line] line.length
    else
      chunkAux maxChars rest (cur ++ [line]) (curLen + line.length)

/-- Embedding of `chunk_text` (`src/app.py:97-113`).  (The Python
`text = text or ""` line only replaces `None` by `""`; here `text` is always
a string.) -/
def chunk_text (text : List Char) (maxChars : Int) : List (List Char) :=
  if (text.length : Int) ≤ maxChars then [text]
  else chunkAux maxChars (splitlinesKeepends text) [] 0

/-- Specification companion of `chunkAux` that keeps each flushed buffer as
the list of its lines instead of joining it; `chunkAux` is its image under
`List.flatten` (`chunkAux_eq_parts`). -/
def chunkPartsAux (maxChars : Int) : List (List Char) → List (List Char) → Nat → List (List (List Char))
  | [], cur, _ => if cur.isEmpty then [] else [cur]
  | line :: rest, cur, curLen =>
    if (curLen : Int) + (line.length : Int) > maxChars ∧ cur ≠ [] then
      cur :: chunkPartsAux maxChars rest [line] line.length
    else
      chunkPartsAux maxChars rest (cur ++ [line]) (curLen + line.length)

/-- The grouping of the lines of `text` that `chunk_text` performs: each
returned chunk is the join of one group. -/
def chunkParts (text : List Char) (maxChars : Int) : List (List (List Char)) :=
  if (text.length : Int) ≤ maxChars then [splitlinesKeepends text]
  else chunkPartsAux maxChars (splitlinesKeepends text) [] 0

/-- A grouping of the lines of `text` into consecutive chunks that never
splits a line and respects the budget, except that a single line may stand
alone however long it is (the comparison class of the minimality
guarantee). -/
def ValidPartition (maxChars : Int) (text : List Char) (P : List (List (List Char))) : Prop :=
  P.flatten = splitlinesKeepends text ∧
    ∀ g ∈ P, g ≠ [] ∧ (((g.flatten.length : Int) ≤ maxChars) ∨ g.length = 1)

/-- The whitespace characters stripped by Python `str.strip()`. -/
def isPySpace (c : Char) : Bool :=
  c = ' ' || c = '\t' || c = '\n' || c = '\r' ||
  c = Char.ofNat 0x0B || c = Char.ofNat 0x0C ||
  c = Char.ofNat 0x1C || c = Char.ofNat 0x1D || c = Char.ofNat 0x1E ||
  c = Char.ofNat 0x1F || c = Char.ofNat 0x85 || c = Char.ofNat 0xA0 ||
  c = Char.ofNat 0x1680 || (0x2000 ≤ c.toNat && c.toNat ≤ 0x200A) ||
  c = Char.ofNat 0x2028 || c = Char.ofNat 0x2029 || c = Char.ofNat 0x202F ||
  c = Char.ofNat 0x205F || c = Char.ofNat 0x3000

/-- Python `s.lstrip()`. -/
def pyLStrip (l : List Char) : List Char := l.dropWhile isPySpace

/-- Python `s.rstrip()`. -/
def pyRStrip (l : List Char) : List Char := (l.reverse.dropWhile isPySpace).reverse

/-- Python `s.strip()`. -/
def pyStrip (l : List Char) : List Char := pyRStrip (pyLStrip l)

/-- Python `sep.join(list)`. -/
def joinSep (sep : List Char) : List (List Char) → List Char
  | [] => []
  | [x] => x
  | x :: y :: rest => x ++ sep ++ joinSep sep (y :: rest)

/-- The positional marker `f"[파트 {i}/{n}]"` of `run_text_job`
(`src/app.py:212`), without its trailing newline. -/
def partLabelCore (i n : Nat) : List Char :=
  ('[' :: '파' :: '트' :: ' ' :: Nat.toDigits 10 i) ++
    ('/' :: Nat.toDigits 10 n) ++ (']' :: [])

/-- The full prefix `f"[파트 {i}/{n}]\n"` put before the output of a chunk. -/
def partLabel (i n : Nat) : List Char := partLabelCore i n ++ ('\n' :: [])

/-- The reassembly stage of `run_text_job` (`src/app.py:205-215`),
factored over the ordered list of per-chunk transformation outputs (one
output per chunk, so the chunk count is `outputs.length`): label each output
with its positional marker when there is more than one chunk, strip each
section, drop the sections that are empty, join with a blank line and strip
the result. -/
def reassemble (outputs : List (List Char)) : List Char :=
  pyStrip (joinSep ('\n' :: '\n' :: [])
    ((outputs.enum.map fun p =>
        if 1 < outputs.length then pyStrip (partLabel (p.1 + 1) outputs.length ++ p.2)
        else pyStrip p.2).filter
      fun o => !o.isEmpty))

/-- Embedding of `run_text_job` (`src/app.py:205-215`).  The external
model call together with the prompt construction (`build_prompt` /
`gemini_text`) is abstracted as the opaque per-chunk transformation
`transform`. -/
def run_text_job (transform : List Char → List Char) (text : List Char) : List Char :=
  pyStrip (joinSep ('\n' :: '\n' :: [])
    (((chunk_text text 8000).enum.map fun p =>
        if 1 < (chunk_text text 8000).length then
          pyStrip (partLabel (p.1 + 1) (chunk_text text 8000).length ++ transform p.2)
        else pyStrip (transform p.2)).filter
      fun o => !o.isEmpty))

/-! ### Structure of `splitlinesKeepends` -/

theorem sl_nil : splitlinesKeepends [] = [] := rfl

theorem sl_break_single (c : Char) (hb : isLineBreak c = true) :
    splitlinesKeepends (c :: []) = (c :: []) :: [] := by
  simp [splitlinesKeepends, hb]

theorem sl_crlf (r : List Char) :
    splitlinesKeepends ('\r' :: '\n' :: r) = ('\r' :: '\n' :: []) :: splitlinesKeepends r := by
  have hb : isLineBreak '\r' = true := by decide
  simp [splitlinesKeepends, hb]

theorem sl_break_cons (c c2 : Char) (r : List Char) (hb : isLineBreak c = true)
    (h : ¬(c = '\r' ∧ c2 = '\n')) :
    splitlinesKeepends (c :: c2 :: r) = (c :: []) :: splitlinesKeepends (c2 :: r) := by
  simp [splitlinesKeepends, hb, h]

theorem sl_nobreak_nil (c : Char) (r : List Char) (hb : isLineBreak c = false)
    (h : splitlinesKeepends r = []) :
    splitlinesKeepends (c :: r) = (c :: []) :: [] := by
  unfold splitlinesKeepends
  simp [hb, h]

theorem sl_nobreak_cons (c : Char) (r : List Char) (l : List Char) (ls : List (List Char))
    (hb : isLineBreak c = false) (h : splitlinesKeepends r = l :: ls) :
    splitlinesKeepends (c :: r) = (c :: l) :: ls := by
  unfold splitlinesKeepends
  simp [hb, h]

/-- Concatenating the lines of `splitlinesKeepends` restores the text. -/
theorem sl_flatten (t : List Char) : (splitlinesKeepends t).flatten = t := by
  induction t using splitlinesKeepends.induct with
  | case1 => rfl
  | case2 c hb => simp [sl_break_single c hb]
  | case3 c hb c2 r h ih =>
    obtain ⟨rfl, rfl⟩ := h
    simp [sl_crlf, ih]
  | case4 c hb c2 r h ih =>
    simp [sl_break_cons c c2 r hb h, ih]
  | case5 c r hb heq ih =>
    have hb' : isLineBreak c = false := by simpa using hb
    have hr : r = [] := by rw [heq] at ih; simpa using ih.symm
    rw [sl_nobreak_nil c r hb' heq]
    simp [hr]
  | case6 c r hb l ls heq ih =>
    have hb' : isLineBreak c = false := by simpa using hb
    rw [heq] at ih
    simp only [sl_nobreak_cons c r l ls hb' heq]
    simpa using ih

/-- `splitlinesKeepends` yields `[]` exactly on the empty text. -/
theorem sl_eq_nil_iff (t : List Char) : splitlinesKeepends t = [] ↔ t = [] := by
  constructor
  · intro h
    have := sl_flatten t
    rw [h] at this
    simpa using this.symm
  · rintro rfl; rfl

/-- No line produced by `splitlinesKeepends` is empty. -/
theorem sl_ne_nil (t : List Char) (x : List Char) (hx : x ∈ splitlinesKeepends t) : x ≠ [] := by
  induction t using splitlinesKeepends.induct with
  | case1 => simp [sl_nil] at hx
  | case2 c hb =>
    rw [sl_break_single c hb] at hx
    simp at hx
    simp [hx]
  | case3 c hb c2 r h ih =>
    obtain ⟨rfl, rfl⟩ := h
    rw [sl_crlf] at hx
    rcases List.mem_cons.1 hx with h' | h'
    · simp [h']
    · exact ih h'
  | case4 c hb c2 r h ih =>
    rw [sl_break_cons c c2 r hb h] at hx
    rcases List.mem_cons.1 hx with h' | h'
    · simp [h']
    · exact ih h'
  | case5 c r hb heq ih =>
    have hb' : isLineBreak c = false := by simpa using hb
    rw [sl_nobreak_nil c r hb' heq] at hx
    simp at hx
    simp [hx]
  | case6 c r hb l ls heq ih =>
    have hb' : isLineBreak c = false := by simpa using hb
    rw [sl_nobreak_cons c r l ls hb' heq] at hx
    rcases List.mem_cons.1 hx with h' | h'
    · simp [h']
    · exact ih (by rw [heq]; exact List.mem_cons_of_mem _ h')

/-- The first line of a non-empty text starts with the first character of
the text. -/
theorem sl_cons_head (c : Char) (r : List Char) :
    ∃ l ls, splitlinesKeepends (c :: r) = (c :: l) :: ls := by
  by_cases hb : isLineBreak c = true
  · match r with
    | [] => exact ⟨[], [], sl_break_single c hb⟩
    | c2 :: r2 =>
      by_cases h : c = '\r' ∧ c2 = '\n'
      · obtain ⟨rfl, rfl⟩ := h
        exact ⟨['\n'], splitlinesKeepends r2, sl_crlf r2⟩
      · exact ⟨[], splitlinesKeepends (c2 :: r2), sl_break_cons c c2 r2 hb h⟩
  · have hb' : isLineBreak c = false := by simpa using hb
    match heq : splitlinesKeepends r with
    | [] => exact ⟨[], [], sl_nobreak_nil c r hb' heq⟩
    | l :: ls => exact ⟨l, ls, sl_nobreak_cons c r l ls hb' heq⟩

/-- Every line is at most as long as the whole text. -/
theorem sl_mem_length (t : List Char) (x : List Char) (hx : x ∈ splitlinesKeepends t) :
    x.length ≤ t.length := by
  conv_rhs => rw [← sl_flatten t]
  calc x.length ≤ ((splitlinesKeepends t).map List.length).sum := by
        exact List.single_le_sum (by simp) _ (List.mem_map_of_mem _ hx)
    _ = (splitlinesKeepends t).flatten.length := by
        rw [List.length_flatten]

/-! ### Line-shaped lists and chains of lines -/

/-- `l` contains no line-boundary character. -/
def NoBreak (l : List Char) : Bool := l.all fun c => !isLineBreak c

/-- `t` is a line terminator: a single line-boundary character or the pair
`"\r\n"`. -/
def IsTerm (t : List Char) : Bool :=
  match t with
  | c :: [] => isLineBreak c
  | c1 :: c2 :: [] => decide (c1 = '\r' ∧ c2 = '\n')
  | _ => false

/-- `l` is a terminated line: break-free content followed by one
terminator. -/
def IsTermLine (l : List Char) : Prop :=
  ∃ a t, NoBreak a = true ∧ IsTerm t = true ∧ l = a ++ t

/-- `l` can be the final line of a text: terminated, or non-empty and
break-free. -/
def IsLastLine (l : List Char) : Prop :=
  IsTermLine l ∨ (l ≠ [] ∧ NoBreak l = true)

/-- A chain of consecutive lines as produced by `splitlinesKeepends`: all
lines before the last are terminated, the last can be a final line, and a
line ending in a bare `'\r'` is never followed by a line starting with
`'\n'` (such a pair would have been one `"\r\n"` terminator). -/
def GoodChain : List (List Char) → Prop
  | [] => True
  | l :: [] => IsLastLine l
  | l :: l' :: rest =>
    IsTermLine l ∧ (l.getLast? = some '\r' → l'.head? ≠ some '\n') ∧ GoodChain (l' :: rest)

theorem isTerm_ne_nil (t : List Char) (ht : IsTerm t = true) : t ≠ [] := by
  cases t with
  | nil => simp [IsTerm] at ht
  | cons c r => simp

theorem isTerm_cases (t : List Char) (ht : IsTerm t = true) :
    (∃ c, t = c :: [] ∧ isLineBreak c = true) ∨ t = '\r' :: '\n' :: [] := by
  match t with
  | [] => simp [IsTerm] at ht
  | c :: [] => exact Or.inl ⟨c, rfl, ht⟩
  | c1 :: c2 :: [] =>
    simp [IsTerm] at ht
    obtain ⟨rfl, rfl⟩ := ht
    exact Or.inr rfl
  | c1 :: c2 :: c3 :: r => simp [IsTerm] at ht

theorem termLine_ne_nil (l : List Char) (h : IsTermLine l) : l ≠ [] := by
  obtain ⟨a, t, _, ht, rfl⟩ := h
  have := isTerm_ne_nil t ht
  intro hc
  rcases List.append_eq_nil.1 hc with ⟨_, h2⟩
  exact this h2

theorem lastLine_ne_nil (l : List Char) (h : IsLastLine l) : l ≠ [] := by
  rcases h with h | ⟨h, _⟩
  · exact termLine_ne_nil l h
  · exact h

theorem termLine_isLastLine (l : List Char) (h : IsTermLine l) : IsLastLine l := Or.inl h

theorem gc_head (l : List Char) (ch : List (List Char)) (h : GoodChain (l :: ch)) :
    IsLastLine l := by
  cases ch with
  | nil => exact h
  | cons l' rest => exact termLine_isLastLine l h.1

theorem gc_tail (l : List Char) (ch : List (List Char)) (h : GoodChain (l :: ch)) :
    GoodChain ch := by
  cases ch with
  | nil => trivial
  | cons l' rest => exact h.2.2

theorem gc_cons (l : List Char) (ch : List (List Char)) (h1 : IsTermLine l)
    (h2 : ∀ l', ch.head? = some l' → l.getLast? = some '\r' → l'.head? ≠ some '\n')
    (h3 : GoodChain ch) : GoodChain (l :: ch) := by
  cases ch with
  | nil => exact termLine_isLastLine l h1
  | cons l' rest => exact ⟨h1, h2 l' rfl, h3⟩

theorem noBreak_cons (c : Char) (l : List Char) (hc : isLineBreak c = false)
    (hl : NoBreak l = true) : NoBreak (c :: l) = true := by
  simp [NoBreak] at hl ⊢
  exact ⟨hc, hl⟩

theorem termLine_cons (c : Char) (l : List Char) (hc : isLineBreak c = false)
    (h : IsTermLine l) : IsTermLine (c :: l) := by
  obtain ⟨a, t, ha, ht, rfl⟩ := h
  exact ⟨c :: a, t, noBreak_cons c a hc ha, ht, rfl⟩

theorem lastLine_cons (c : Char) (l : List Char) (hc : isLineBreak c = false)
    (h : IsLastLine l) : IsLastLine (c :: l) := by
  rcases h with h | ⟨hne, hnb⟩
  · exact Or.inl (termLine_cons c l hc h)
  · exact Or.inr ⟨by simp, noBreak_cons c l hc hnb⟩

theorem gc_cons_extend (c : Char) (l : List Char) (ch : List (List Char))
    (hc : isLineBreak c = false) (h : GoodChain (l :: ch)) : GoodChain ((c :: l) :: ch) := by
  cases ch with
  | nil => exact lastLine_cons c l hc (gc_head l [] h)
  | cons l2 rest =>
    obtain ⟨h1, h2, h3⟩ := h
    refine ⟨termLine_cons c l hc h1, ?_, h3⟩
    have hne : l ≠ [] := termLine_ne_nil l h1
    intro hlast
    apply h2
    obtain ⟨x, xs, rfl⟩ := List.exists_cons_of_ne_nil hne
    rwa [List.getLast?_cons_cons] at hlast

theorem gc_append_right (xs ys : List (List Char)) (h : GoodChain (xs ++ ys)) :
    GoodChain ys := by
  induction xs with
  | nil => exact h
  | cons x xs ih => exact ih (gc_tail _ _ h)

theorem gc_append_left (xs ys : List (List Char)) (h : GoodChain (xs ++ ys)) :
    GoodChain xs := by
  induction xs with
  | nil => trivial
  | cons x xs ih =>
    cases xs with
    | nil => exact gc_head _ _ h
    | cons x2 xs' =>
      obtain ⟨h1, h2, h3⟩ := h
      exact ⟨h1, h2, ih h3⟩

/-- `splitlinesKeepends` produces a good chain of lines. -/
theorem sl_goodchain (t : List Char) : GoodChain (splitlinesKeepends t) := by
  induction t using splitlinesKeepends.induct with
  | case1 => trivial
  | case2 c hb =>
    rw [sl_break_single c hb]
    exact Or.inl ⟨[], c :: [], rfl, by simpa [IsTerm] using hb, rfl⟩
  | case3 c hb c2 r h ih =>
    obtain ⟨rfl, rfl⟩ := h
    rw [sl_crlf]
    refine gc_cons _ _ ⟨[], '\r' :: '\n' :: [], rfl, by simp [IsTerm], rfl⟩ ?_ ih
    intro l' _ hlast
    simp at hlast
  | case4 c hb c2 r h ih =>
    rw [sl_break_cons c c2 r hb h]
    refine gc_cons _ _ ⟨[], c :: [], rfl, by simpa [IsTerm] using hb, rfl⟩ ?_ ih
    intro l' hl' hlast
    obtain ⟨lt, lts, heq⟩ := sl_cons_head c2 r
    rw [heq] at hl'
    simp at hl'
    simp at hlast
    subst hlast
    rw [← hl']
    intro hcontra
    simp at hcontra
    exact h ⟨rfl, hcontra⟩
  | case5 c r hb heq ih =>
    have hb' : isLineBreak c = false := by simpa using hb
    rw [sl_nobreak_nil c r hb' heq]
    exact Or.inr ⟨by simp, by simp [NoBreak, hb']⟩
  | case6 c r hb l ls heq ih =>
    have hb' : isLineBreak c = false := by simpa using hb
    rw [sl_nobreak_cons c r l ls hb' heq]
    rw [heq] at ih
    exact gc_cons_extend c l ls hb' ih

/-- A non-empty break-free list is a single line. -/
theorem sl_nobreak (l : List Char) (hne : l ≠ []) (hnb : NoBreak l = true) :
    splitlinesKeepends l = l :: [] := by
  induction l with
  | nil => exact absurd rfl hne
  | cons c r ih =>
    simp [NoBreak] at hnb
    have hc : isLineBreak c = false := by simpa using hnb.1
    cases r with
    | nil => exact sl_nobreak_nil c [] hc rfl
    | cons c2 r2 =>
      have hr : splitlinesKeepends (c2 :: r2) = (c2 :: r2) :: [] := by
        apply ih (by simp)
        simpa [NoBreak] using hnb.2
      exact sl_nobreak_cons c (c2 :: r2) (c2 :: r2) [] hc hr

/-- Splitting a terminated line followed by a remainder peels off exactly
that line, provided a bare `'\r'` terminator is not followed by `'\n'`. -/
theorem sl_append (a t r : List Char) (ha : NoBreak a = true) (ht : IsTerm t = true)
    (hr : t.getLast? = some '\r' → r.head? ≠ some '\n') :
    splitlinesKeepends (a ++ (t ++ r)) = (a ++ t) :: splitlinesKeepends r := by
  induction a with
  | nil =>
    simp only [List.nil_append]
    rcases isTerm_cases t ht with ⟨c, rfl, hb⟩ | rfl
    · cases r with
      | nil => simpa using sl_break_single c hb
      | cons c2 r2 =>
        have h : ¬(c = '\r' ∧ c2 = '\n') := by
          rintro ⟨rfl, rfl⟩
          exact hr (by simp) rfl
        simpa using sl_break_cons c c2 r2 hb h
    · simpa using sl_crlf r
  | cons c a' ih =>
    simp [NoBreak] at ha
    have hc : isLineBreak c = false := by simpa using ha.1
    have ha' : NoBreak a' = true := by simp [NoBreak]; exact ha.2
    have := sl_nobreak_cons c (a' ++ (t ++ r)) (a' ++ t) (splitlinesKeepends r) hc (ih ha')
    simpa using this

/-- Splitting the concatenation of a good chain of lines recovers exactly
that chain. -/
theorem gc_flatten (ch : List (List Char)) (h : GoodChain ch) :
    splitlinesKeepends ch.flatten = ch := by
  induction ch with
  | nil => rfl
  | cons l ch' ih =>
    cases ch' with
    | nil =>
      rcases gc_head l [] h with ⟨a, t, ha, ht, rfl⟩ | ⟨hne, hnb⟩
      · have := sl_append a t [] ha ht (by intro _ hcon; simp at hcon)
        simpa using this
      · simpa using sl_nobreak l hne hnb
    | cons l2 ch'' =>
      obtain ⟨h1, h2, h3⟩ := h
      obtain ⟨a, t, ha, ht, rfl⟩ := h1
      have hl2 : l2 ≠ [] := lastLine_ne_nil l2 (gc_head l2 ch'' h3)
      have htne : t ≠ [] := isTerm_ne_nil t ht
      have hstep := sl_append a t ((l2 :: ch'').flatten) ha ht ?_
      · rw [List.flatten_cons, List.append_assoc, hstep, ih h3]
      · intro hlast
        have : (a ++ t).getLast? = some '\r' := by
          rw [List.getLast?_append_of_ne_nil a htne]; exact hlast
        have hhead : (l2 :: ch'').flatten.head? = l2.head? := by
          rw [List.flatten_cons]
          exact List.head?_append_of_ne_nil l2 hl2
        rw [hhead]
        exact h2 this

/-! ### Structure of the chunker -/

theorem chunkAux_eq_parts (m : Int) (ls : List (List Char)) :
    ∀ cur n, chunkAux m ls cur n = (chunkPartsAux m ls cur n).map List.flatten := by
  induction ls with
  | nil =>
    intro cur n
    by_cases h : cur.isEmpty <;> simp [chunkAux, chunkPartsAux, h]
  | cons line rest ih =>
    intro cur n
    by_cases h : (n : Int) + (line.length : Int) > m ∧ cur ≠ [] <;>
      simp [chunkAux, chunkPartsAux, h, ih]

theorem parts_flatten (m : Int) (ls : List (List Char)) :
    ∀ cur n, (chunkPartsAux m ls cur n).flatten = cur ++ ls := by
  induction ls with
  | nil =>
    intro cur n
    cases cur with
    | nil => simp [chunkPartsAux]
    | cons x xs => simp [chunkPartsAux]
  | cons line rest ih =>
    intro cur n
    by_cases h : (n : Int) + (line.length : Int) > m ∧ cur ≠ [] <;>
      simp [chunkPartsAux, h, ih]

theorem parts_ne_nil (m : Int) (ls : List (List Char)) :
    ∀ cur n g, g ∈ chunkPartsAux m ls cur n → g ≠ [] := by
  induction ls with
  | nil =>
    intro cur n g hg
    cases cur with
    | nil => simp [chunkPartsAux] at hg
    | cons x xs =>
      simp [chunkPartsAux] at hg
      simp [hg]
  | cons line rest ih =>
    intro cur n g hg
    by_cases h : (n : Int) + (line.length : Int) > m ∧ cur ≠ []
    · rw [show chunkPartsAux m (line :: rest) cur n =
          cur :: chunkPartsAux m rest [line] line.length from by simp [chunkPartsAux, h]] at hg
      rcases List.mem_cons.1 hg with rfl | hg'
      · exact h.2
      · exact ih [line] line.length g hg'
    · rw [show chunkPartsAux m (line :: rest) cur n =
          chunkPartsAux m rest (cur ++ [line]) (n + line.length) from by
            simp [chunkPartsAux, h]] at hg
      exact ih (cur ++ [line]) (n + line.length) g hg

theorem parts_bound (m : Int) (ls : List (List Char)) :
    ∀ cur n, n = cur.flatten.length →
      (cur = [] ∨ (cur.flatten.length : Int) ≤ m ∨ cur.length = 1) →
      ∀ g ∈ chunkPartsAux m ls cur n, ((g.flatten.length : Int) ≤ m ∨ g.length = 1) := by
  induction ls with
  | nil =>
    intro cur n hn hinv g hg
    cases cur with
    | nil => simp [chunkPartsAux] at hg
    | cons x xs =>
      simp [chunkPartsAux] at hg
      subst hg
      rcases hinv with h | h
      · simp at h
      · exact h
  | cons line rest ih =>
    intro cur n hn hinv g hg
    by_cases h : (n : Int) + (line.length : Int) > m ∧ cur ≠ []
    · rw [show chunkPartsAux m (line :: rest) cur n =
          cur :: chunkPartsAux m rest [line] line.length from by simp [chunkPartsAux, h]] at hg
      rcases List.mem_cons.1 hg with rfl | hg'
      · rcases hinv with hcur | hb
        · exact absurd hcur h.2
        · exact hb
      · exact ih [line] line.length (by simp) (Or.inr (Or.inr rfl)) g hg'
    · rw [show chunkPartsAux m (line :: rest) cur n =
          chunkPartsAux m rest (cur ++ [line]) (n + line.length) from by
            simp [chunkPartsAux, h]] at hg
      apply ih (cur ++ [line]) (n + line.length) (by simp [hn]) ?_ g hg
      rcases Decidable.em (cur = []) with rfl | hcur
      · exact Or.inr (Or.inr (by simp))
      · right; left
        have hle : ¬((n : Int) + (line.length : Int) > m) := fun hgt => h ⟨hgt, hcur⟩
        have : (cur ++ [line]).flatten.length = n + line.length := by simp [hn]
        rw [this]
        push_cast
        omega

theorem parts_chain (m : Int) (ls : List (List Char)) :
    ∀ cur n, GoodChain (cur ++ ls) → ∀ g ∈ chunkPartsAux m ls cur n, GoodChain g := by
  induction ls with
  | nil =>
    intro cur n hgc g hg
    cases cur with
    | nil => simp [chunkPartsAux] at hg
    | cons x xs =>
      simp [chunkPartsAux] at hg
      subst hg
      simpa using hgc
  | cons line rest ih =>
    intro cur n hgc g hg
    by_cases h : (n : Int) + (line.length : Int) > m ∧ cur ≠ []
    · rw [show chunkPartsAux m (line :: rest) cur n =
          cur :: chunkPartsAux m rest [line] line.length from by simp [chunkPartsAux, h]] at hg
      rcases List.mem_cons.1 hg with rfl | hg'
      · exact gc_append_left _ (line :: rest) hgc
      · exact ih [line] line.length (gc_append_right cur (line :: rest) hgc) g hg'
    · rw [show chunkPartsAux m (line :: rest) cur n =
          chunkPartsAux m rest (cur ++ [line]) (n + line.length) from by
            simp [chunkPartsAux, h]] at hg
      apply ih (cur ++ [line]) (n + line.length) ?_ g hg
      rw [List.append_assoc]
      simpa using hgc

theorem parts_mem_mem (m : Int) (ls : List (List Char)) :
    ∀ cur n g x, g ∈ chunkPartsAux m ls cur n → x ∈ g → x ∈ cur ++ ls := by
  induction ls with
  | nil =>
    intro cur n g x hg hx
    cases cur with
    | nil => simp [chunkPartsAux] at hg
    | cons c cs =>
      simp [chunkPartsAux] at hg
      subst hg
      simpa using hx
  | cons line rest ih =>
    intro cur n g x hg hx
    by_cases h : (n : Int) + (line.length : Int) > m ∧ cur ≠ []
    · rw [show chunkPartsAux m (line :: rest) cur n =
          cur :: chunkPartsAux m rest [line] line.length from by simp [chunkPartsAux, h]] at hg
      rcases List.mem_cons.1 hg with rfl | hg'
      · exact List.mem_append_left _ hx
      · have := ih [line] line.length g x hg' hx
        simp at this
        rcases this with rfl | hmem
        · simp
        · simp [hmem]
    · rw [show chunkPartsAux m (line :: rest) cur n =
          chunkPartsAux m rest (cur ++ [line]) (n + line.length) from by
            simp [chunkPartsAux, h]] at hg
      have := ih (cur ++ [line]) (n + line.length) g x hg hx
      simpa [List.append_assoc] using this

/-- A buffer holding exactly one over-budget line is flushed as its own
group, whatever comes next. -/
theorem parts_oversized_buffer (m : Int) (l : List Char) (hlen : m < (l.length : Int)) :
    ∀ rest, (l :: []) ∈ chunkPartsAux m rest (l :: []) l.length := by
  intro rest
  induction rest with
  | nil => simp [chunkPartsAux]
  | cons line rest' ih =>
    have h : (l.length : Int) + (line.length : Int) > m ∧ (l :: []) ≠ ([] : List (List Char)) := by
      refine ⟨?_, by simp⟩
      have : (0 : Int) ≤ (line.length : Int) := Int.natCast_nonneg _
      omega
    rw [show chunkPartsAux m (line :: rest') (l :: []) l.length =
        (l :: []) :: chunkPartsAux m rest' [line] line.length from by simp [chunkPartsAux, h]]
    simp

/-- Every over-budget line of the input ends up as a singleton group. -/
theorem parts_oversized (m : Int) (l : List Char) (hlen : m < (l.length : Int)) :
    ∀ ls cur n, l ∈ ls → n = cur.flatten.length → (l :: []) ∈ chunkPartsAux m ls cur n := by
  intro ls
  induction ls with
  | nil => intro cur n h _; simp at h
  | cons line rest ih =>
    intro cur n hmem hn
    rcases List.mem_cons.1 hmem with rfl | hmem'
    · by_cases h : (n : Int) + (l.length : Int) > m ∧ cur ≠ []
      · rw [show chunkPartsAux m (l :: rest) cur n =
            cur :: chunkPartsAux m rest [l] l.length from by simp [chunkPartsAux, h]]
        exact List.mem_cons_of_mem _ (parts_oversized_buffer m l hlen rest)
      · have hcur : cur = [] := by
          by_contra hc
          apply h
          refine ⟨?_, hc⟩
          have : (0 : Int) ≤ (n : Int) := Int.natCast_nonneg _
          omega
        subst hcur
        rw [show chunkPartsAux m (l :: rest) ([] : List (List Char)) n =
            chunkPartsAux m rest [l] (n + l.length) from by simp [chunkPartsAux, h]]
        have hn0 : n = 0 := by simpa using hn
        subst hn0
        simpa using parts_oversized_buffer m l hlen rest
    · by_cases h : (n : Int) + (line.length : Int) > m ∧ cur ≠ []
      · rw [show chunkPartsAux m (line :: rest) cur n =
            cur :: chunkPartsAux m rest [line] line.length from by simp [chunkPartsAux, h]]
        exact List.mem_cons_of_mem _ (ih [line] line.length hmem' (by simp))
      · rw [show chunkPartsAux m (line :: rest) cur n =
            chunkPartsAux m rest (cur ++ [line]) (n + line.length) from by
              simp [chunkPartsAux, h]]
        exact ih (cur ++ [line]) (n + line.length) hmem' (by simp [hn])

/-- With a non-positive budget and a non-empty buffer, every further line
forces a flush: each line becomes its own chunk. -/
theorem chunkAux_nonpos_buffer (m : Int) (hm : m ≤ 0) (l : List Char) (hl : l ≠ []) :
    ∀ ls, (∀ x ∈ ls, x ≠ ([] : List Char)) → chunkAux m ls (l :: []) l.length = l :: ls := by
  intro ls
  induction ls generalizing l with
  | nil => intro _; simp [chunkAux]
  | cons x rest ih =>
    intro hx
    have hxne : x ≠ [] := hx x (by simp)
    have h : (l.length : Int) + (x.length : Int) > m ∧ (l :: []) ≠ ([] : List (List Char)) := by
      refine ⟨?_, by simp⟩
      have h1 : 0 < l.length := List.length_pos.2 hl
      have h2 : 0 < x.length := List.length_pos.2 hxne
      omega
    rw [show chunkAux m (x :: rest) (l :: []) l.length =
        (l :: []).flatten :: chunkAux m rest [x] x.length from by simp [chunkAux, h]]
    rw [ih x hxne (fun y hy => hx y (List.mem_cons_of_mem _ hy))]
    simp

/-- With a non-positive budget the loop of `chunk_text` returns each line as
its own chunk. -/
theorem chunkAux_nonpos (m : Int) (hm : m ≤ 0) (ls : List (List Char))
    (h : ∀ x ∈ ls, x ≠ ([] : List Char)) : chunkAux m ls [] 0 = ls := by
  cases ls with
  | nil => rfl
  | cons x rest =>
    rw [show chunkAux m (x :: rest) ([] : List (List Char)) 0 =
        chunkAux m rest [x] (0 + x.length) from by simp [chunkAux]]
    rw [show 0 + x.length = x.length from by omega]
    exact chunkAux_nonpos_buffer m hm x (h x (by simp)) rest
      (fun y hy => h y (List.mem_cons_of_mem _ hy))

/-! ### Claims about the chunker -/

/-- Claim C1: for every text and every positive budget, concatenating the
chunks of `chunk_text text budget` in order reproduces `text` exactly. -/
theorem chunk_text_roundtrip (text : List Char) (budget : Int) (_hb : 0 < budget) :
    (chunk_text text budget).flatten = text := by
  unfold chunk_text
  by_cases h : (text.length : Int) ≤ budget
  · simp [h]
  · simp only [h, if_false]
    rw [chunkAux_eq_parts, ← List.flatten_flatten, parts_flatten]
    simpa using sl_flatten text

/-- Witness for C1 at a concrete input. -/
theorem chunk_text_roundtrip_witness :
    (0 : Int) < 5 ∧ (chunk_text "ab\ncd\nef".data 5).flatten = "ab\ncd\nef".data :=
  ⟨by decide, chunk_text_roundtrip "ab\ncd\nef".data 5 (by decide)⟩

/-- Claim C2: every chunk of `chunk_text text budget` that spans more than
one source line has length at most `budget`; only a chunk that is a single
line may exceed it. -/
theorem chunk_text_bound (text : List Char) (budget : Int) (_hb : 0 < budget)
    (c : List Char) (hc : c ∈ chunk_text text budget)
    (hmulti : 1 < (splitlinesKeepends c).length) : (c.length : Int) ≤ budget := by
  unfold chunk_text at hc
  by_cases h : (text.length : Int) ≤ budget
  · simp only [h, if_true, List.mem_singleton] at hc
    subst hc
    exact h
  · simp only [h, if_false] at hc
    rw [chunkAux_eq_parts] at hc
    obtain ⟨g, hg, rfl⟩ := List.mem_map.1 hc
    have hchain : GoodChain g :=
      parts_chain budget (splitlinesKeepends text) [] 0 (by simpa using sl_goodchain text) g hg
    rw [gc_flatten g hchain] at hmulti
    rcases parts_bound budget (splitlinesKeepends text) [] 0 rfl (Or.inl rfl) g hg with h1 | h1
    · exact h1
    · omega

/-- Witness for C2 at a concrete input: the chunk `"cd\nef"` spans two
lines and fits the budget 5. -/
theorem chunk_text_bound_witness :
    ((0 : Int) < 5 ∧ "cd\nef".data ∈ chunk_text "ab\ncd\nef".data 5 ∧
        1 < (splitlinesKeepends "cd\nef".data).length) ∧
      (("cd\nef".data.length : Int) ≤ 5) :=
  ⟨⟨by decide, by decide, by decide⟩,
    chunk_text_bound "ab\ncd\nef".data 5 (by decide) "cd\nef".data (by decide) (by decide)⟩

/-- Claim C3: a source line longer than the (positive) budget is emitted by
`chunk_text` as a chunk of its own, equal to the full line. -/
theorem chunk_text_oversized (text : List Char) (budget : Int) (_hb : 0 < budget)
    (l : List Char) (hl : l ∈ splitlinesKeepends text) (hlen : budget < (l.length : Int)) :
    l ∈ chunk_text text budget := by
  unfold chunk_text
  have hlt : ¬((text.length : Int) ≤ budget) := by
    have := sl_mem_length text l hl
    omega
  simp only [hlt, if_false]
  rw [chunkAux_eq_parts]
  exact List.mem_map.2
    ⟨l :: [], parts_oversized budget l hlen (splitlinesKeepends text) [] 0 hl rfl, by simp⟩

/-- Witness for C3 at a concrete input: the line `"AAAA\n"` exceeds the
budget 3 and is returned whole as its own chunk. -/
theorem chunk_text_oversized_witness :
    ((0 : Int) < 3 ∧ "AAAA\n".data ∈ splitlinesKeepends "AAAA\nB".data ∧
        (3 : Int) < ("AAAA\n".data.length : Int)) ∧
      "AAAA\n".data ∈ chunk_text "AAAA\nB".data 3 :=
  ⟨⟨by decide, by decide, by decide⟩,
    chunk_text_oversized "AAAA\nB".data 3 (by decide) "AAAA\n".data (by decide) (by decide)⟩

/-- Counterexample to claim C5 as stated: a non-positive budget is not
rejected and does not fail; `chunk_text "a\nb" (-1)` terminates and returns
the two lines as chunks (no `InvalidArgument` error exists in the code). -/
theorem chunk_text_nonpos_counterexample :
    chunk_text "a\nb".data (-1) = ["a\n".data, "b".data] := by decide

/-- Claim C5 (amended): `chunk_text` performs no budget validation and
never raises; for a non-positive budget and a non-empty text it terminates
and returns each source line as its own chunk. -/
theorem chunk_text_nonpos (text : List Char) (budget : Int) (hm : budget ≤ 0)
    (ht : text ≠ []) : chunk_text text budget = splitlinesKeepends text := by
  unfold chunk_text
  have h : ¬((text.length : Int) ≤ budget) := by
    have : 0 < text.length := List.length_pos.2 ht
    omega
  simp only [h, if_false]
  exact chunkAux_nonpos budget hm _ (fun x hx => sl_ne_nil text x hx)

/-- Witness for the amended C5 at a concrete input. -/
theorem chunk_text_nonpos_witness :
    ((-1 : Int) ≤ 0 ∧ "a\nb".data ≠ []) ∧
      chunk_text "a\nb".data (-1) = splitlinesKeepends "a\nb".data :=
  ⟨⟨by decide, by decide⟩, chunk_text_nonpos "a\nb".data (-1) (by decide) (by decide)⟩

/-- Claim C7: a text no longer than the (positive) budget — including the
empty text — is returned unchanged as the single chunk. -/
theorem chunk_text_short (text : List Char) (budget : Int) (_hb : 0 < budget)
    (h : (text.length : Int) ≤ budget) : chunk_text text budget = [text] := by
  unfold chunk_text
  simp [h]

/-- Witness for C7 at the concrete inputs of the spec: `split("", 100) = [""]`
and `split("hello", 100) = ["hello"]`. -/
theorem chunk_text_short_witness :
    ((0 : Int) < 100 ∧ ("".data.length : Int) ≤ 100 ∧ ("hello".data.length : Int) ≤ 100) ∧
      chunk_text "".data 100 = ["".data] ∧ chunk_text "hello".data 100 = ["hello".data] :=
  ⟨⟨by decide, by decide, by decide⟩,
    chunk_text_short "".data 100 (by decide) (by decide),
    chunk_text_short "hello".data 100 (by decide) (by decide)⟩

/-- Claim C10: for a non-empty text and a positive budget, every chunk
returned by `chunk_text` is non-empty. -/
theorem chunk_text_ne_nil (text : List Char) (budget : Int) (_hb : 0 < budget)
    (ht : text ≠ []) (c : List Char) (hc : c ∈ chunk_text text budget) : c ≠ [] := by
  unfold chunk_text at hc
  by_cases h : (text.length : Int) ≤ budget
  · simp only [h, if_true, List.mem_singleton] at hc
    subst hc
    exact ht
  · simp only [h, if_false] at hc
    rw [chunkAux_eq_parts] at hc
    obtain ⟨g, hg, rfl⟩ := List.mem_map.1 hc
    obtain ⟨x, xs, rfl⟩ := List.exists_cons_of_ne_nil
      (parts_ne_nil budget (splitlinesKeepends text) [] 0 g hg)
    have hx : x ∈ splitlinesKeepends text := by
      have := parts_mem_mem budget (splitlinesKeepends text) [] 0 (x :: xs) x hg (by simp)
      simpa using this
    have hxne := sl_ne_nil text x hx
    simp only [List.flatten_cons]
    intro hcon
    exact hxne (List.append_eq_nil.1 hcon).1

/-- Witness for C10 at a concrete input. -/
theorem chunk_text_ne_nil_witness :
    ((0 : Int) < 5 ∧ "ab\ncd\nef".data ≠ [] ∧ "ab\n".data ∈ chunk_text "ab\ncd\nef".data 5) ∧
      "ab\n".data ≠ [] :=
  ⟨⟨by decide, by decide, by decide⟩,
    chunk_text_ne_nil "ab\ncd\nef".data 5 (by decide) (by decide) "ab\n".data (by decide)⟩

/-! ### Minimality of the greedy chunking -/

/-- If the current buffer together with a whole block of further lines fits
the budget, the greedy loop absorbs the block without flushing. -/
theorem parts_absorb (m : Int) (g : List (List Char)) :
    ∀ (rest cur : List (List Char)) (n : Nat), n = cur.flatten.length →
      ((cur.flatten.length : Int) + (g.flatten.length : Int) ≤ m) →
      chunkPartsAux m (g ++ rest) cur n =
        chunkPartsAux m rest (cur ++ g) (n + g.flatten.length) := by
  induction g with
  | nil => intro rest cur n hn _; simp
  | cons line g' ih =>
    intro rest cur n hn hle
    have hlen : ((line :: g').flatten.length : Int) =
        (line.length : Int) + (g'.flatten.length : Int) := by
      simp [List.flatten_cons]
    have hnoflush : ¬((n : Int) + (line.length : Int) > m ∧ cur ≠ []) := by
      rintro ⟨hgt, -⟩
      rw [hlen] at hle
      have : (0 : Int) ≤ (g'.flatten.length : Int) := Int.natCast_nonneg _
      omega
    rw [show chunkPartsAux m ((line :: g') ++ rest) cur n =
        chunkPartsAux m (g' ++ rest) (cur ++ [line]) (n + line.length) from by
          simp [chunkPartsAux, hnoflush]]
    rw [ih rest (cur ++ [line]) (n + line.length) (by simp [hn]) (by
      rw [hlen] at hle
      simp only [List.flatten_append, List.length_append, List.flatten_cons,
        List.flatten_nil, List.append_nil]
      push_cast
      omega)]
    congr 1
    · simp
    · simp [List.flatten_cons]
      omega

/-- A partition with non-empty groups and empty concatenation is empty. -/
theorem valid_nil (P : List (List (List Char))) (hj : P.flatten = [])
    (hne : ∀ g ∈ P, g ≠ ([] : List (List Char))) : P = [] := by
  cases P with
  | nil => rfl
  | cons g P' =>
    rw [List.flatten_cons] at hj
    exact absurd (List.append_eq_nil.1 hj).1 (hne g (by simp))

/-- The bound carried by a valid group that holds at least two lines. -/
theorem valid_group_bound (m : Int) (line : List Char) (g : List (List Char)) (hgne : g ≠ [])
    (hb : ((line :: g).flatten.length : Int) ≤ m ∨ (line :: g).length = 1) :
    ((line :: g).flatten.length : Int) ≤ m := by
  rcases hb with hb | hb
  · exact hb
  · exfalso
    have h1 : g.length + 1 = 1 := by simpa using hb
    exact hgne (List.length_eq_zero.1 (by omega))

/-- Greedy exchange argument: the greedy loop, started on `ls` with buffer
`cur`, produces at most one chunk more than any valid grouping of `ls`
(and no extra chunk when the buffer is empty). -/
theorem parts_min (m : Int) :
    ∀ (N : Nat) (ls : List (List Char)), ls.length ≤ N →
      ∀ (P : List (List (List Char))) (cur : List (List Char)) (n : Nat),
        n = cur.flatten.length → P.flatten = ls →
        (∀ g ∈ P, g ≠ [] ∧ (((g.flatten.length : Int) ≤ m) ∨ g.length = 1)) →
        (chunkPartsAux m ls cur n).length ≤ P.length + (if cur = [] then 0 else 1) := by
  intro N
  induction N with
  | zero =>
    intro ls hlen P cur n hn hj hv
    have hls : ls = [] := List.length_eq_zero.1 (Nat.le_zero.1 hlen)
    subst hls
    have hP : P = [] := valid_nil P hj (fun g hg => (hv g hg).1)
    subst hP
    cases cur with
    | nil => simp [chunkPartsAux]
    | cons x xs => simp [chunkPartsAux]
  | succ N ih =>
    intro ls hlen P cur n hn hj hv
    cases ls with
    | nil =>
      have hP : P = [] := valid_nil P hj (fun g hg => (hv g hg).1)
      subst hP
      cases cur with
      | nil => simp [chunkPartsAux]
      | cons x xs => simp [chunkPartsAux]
    | cons line rest =>
      have hlenr : rest.length ≤ N := by simpa using hlen
      obtain ⟨g1, P', rfl⟩ : ∃ g1 P', P = g1 :: P' := by
        cases P with
        | nil => simp at hj
        | cons a b => exact ⟨a, b, rfl⟩
      have hg1ne : g1 ≠ [] := (hv g1 (by simp)).1
      obtain ⟨x, g, rfl⟩ := List.exists_cons_of_ne_nil hg1ne
      have hj' : x :: (g ++ P'.flatten) = line :: rest := by simpa using hj
      have hx : x = line := by injection hj'
      subst hx
      have hrest : rest = g ++ P'.flatten := by
        injection hj' with _ h2
        exact h2.symm
      have hvP' : ∀ h ∈ P', h ≠ [] ∧ (((h.flatten.length : Int) ≤ m) ∨ h.length = 1) :=
        fun h hh => hv h (List.mem_cons_of_mem _ hh)
      have hvalid1 := hv (x :: g) (by simp)
      have hlenP' : P'.flatten.length ≤ N := by
        have h1 : rest.length = g.length + P'.flatten.length := by
          rw [hrest]; simp
        omega
      by_cases hfl : (n : Int) + (x.length : Int) > m ∧ cur ≠ []
      · -- flush branch
        rw [show chunkPartsAux m (x :: rest) cur n =
            cur :: chunkPartsAux m rest [x] x.length from by simp [chunkPartsAux, hfl]]
        rcases Decidable.em (g = []) with rfl | hgne
        · simp only [List.nil_append] at hrest
          have hrec := ih rest hlenr P' [x] x.length (by simp) hrest.symm hvP'
          have hne1 : ([x] : List (List Char)) ≠ [] := by simp
          simp only [if_neg hne1] at hrec
          simp only [List.length_cons, if_neg hfl.2]
          omega
        · -- the first group continues past `x`: greedy absorbs the rest of it
          have hbound := valid_group_bound m x g hgne hvalid1.2
          subst hrest
          rw [parts_absorb m g P'.flatten [x] x.length (by simp) (by
            simp only [List.flatten_cons, List.length_append] at hbound
            simp only [List.flatten_cons, List.flatten_nil, List.append_nil, List.length_append]
            push_cast at hbound ⊢
            omega)]
          have hrec := ih P'.flatten hlenP' P' ([x] ++ g)
            (x.length + g.flatten.length) (by simp) rfl hvP'
          have hne1 : ([x] ++ g : List (List Char)) ≠ [] := by simp
          simp only [if_neg hne1] at hrec
          simp only [List.length_cons, if_neg hfl.2]
          omega
      · -- no flush: the line joins the buffer
        rw [show chunkPartsAux m (x :: rest) cur n =
            chunkPartsAux m rest (cur ++ [x]) (n + x.length) from by
              simp [chunkPartsAux, hfl]]
        have hne2 : (cur ++ [x] : List (List Char)) ≠ [] := by simp
        rcases Decidable.em (g = []) with rfl | hgne
        · simp only [List.nil_append] at hrest
          have hrec := ih rest hlenr P' (cur ++ [x]) (n + x.length)
            (by simp [hn]) hrest.symm hvP'
          simp only [if_neg hne2] at hrec
          rcases Decidable.em (cur = []) with rfl | hc
          · simp only [if_pos rfl, List.length_cons]
            omega
          · simp only [if_neg hc, List.length_cons]
            omega
        · have hbound := valid_group_bound m x g hgne hvalid1.2
          rcases Decidable.em (cur = []) with rfl | hc
          · -- empty buffer: greedy absorbs the whole first group
            have hn0 : n = 0 := by simpa using hn
            subst hn0
            subst hrest
            rw [parts_absorb m g P'.flatten ([] ++ [x]) (0 + x.length) (by simp) (by
              simp only [List.flatten_cons, List.length_append] at hbound
              simp only [List.nil_append, List.flatten_cons, List.flatten_nil,
                List.append_nil, List.length_append]
              push_cast at hbound ⊢
              omega)]
            have hrec := ih P'.flatten hlenP' P' (([] ++ [x]) ++ g)
              ((0 + x.length) + g.flatten.length) (by simp) rfl hvP'
            have hne3 : (([] ++ [x]) ++ g : List (List Char)) ≠ [] := by simp
            simp only [if_neg hne3] at hrec
            simp only [if_pos rfl, List.length_cons]
            omega
          · -- non-empty buffer: compare with the grouping that starts afresh at `g`
            have hvg : ∀ h ∈ g :: P', h ≠ [] ∧ (((h.flatten.length : Int) ≤ m) ∨ h.length = 1) := by
              intro h hh
              rcases List.mem_cons.1 hh with rfl | hh'
              · refine ⟨hgne, Or.inl ?_⟩
                simp only [List.flatten_cons, List.length_append] at hbound
                push_cast at hbound ⊢
                omega
              · exact hvP' h hh'
            have hrec := ih rest hlenr (g :: P') (cur ++ [x]) (n + x.length)
              (by simp [hn]) (by rw [hrest]; simp) hvg
            simp only [if_neg hne2] at hrec
            simp only [if_neg hc, List.length_cons]
            simp only [List.length_cons] at hrec
            omega

/-- The grouping performed by `chunk_text` is itself a valid partition. -/
theorem chunkParts_valid (text : List Char) (budget : Int) (ht : text ≠ []) :
    ValidPartition budget text (chunkParts text budget) := by
  unfold chunkParts ValidPartition
  by_cases h : (text.length : Int) ≤ budget
  · simp only [h, if_true]
    refine ⟨by simp, ?_⟩
    intro g hg
    simp only [List.mem_singleton] at hg
    subst hg
    refine ⟨by rw [ne_eq, sl_eq_nil_iff]; exact ht, Or.inl ?_⟩
    rw [sl_flatten]
    exact h
  · simp only [h, if_false]
    refine ⟨by rw [parts_flatten]; simp, ?_⟩
    intro g hg
    exact ⟨parts_ne_nil budget _ [] 0 g hg, parts_bound budget _ [] 0 rfl (Or.inl rfl) g hg⟩

/-- Claim C6: the chunking is greedy and its chunk count is minimal among
all groupings of the source lines into consecutive chunks that never split
a line and respect the budget (single lines may stand alone): `chunk_text`
realises one such grouping (`chunkParts`) and no valid grouping has fewer
chunks. -/
theorem chunk_text_minimal (text : List Char) (budget : Int) (_hb : 0 < budget)
    (ht : text ≠ []) :
    ValidPartition budget text (chunkParts text budget) ∧
      chunk_text text budget = (chunkParts text budget).map List.flatten ∧
      ∀ P, ValidPartition budget text P → (chunk_text text budget).length ≤ P.length := by
  refine ⟨chunkParts_valid text budget ht, ?_, ?_⟩
  · unfold chunk_text chunkParts
    by_cases h : (text.length : Int) ≤ budget
    · simp only [h, if_true, List.map_cons, List.map_nil]
      rw [sl_flatten]
    · simp only [h, if_false]
      exact chunkAux_eq_parts budget _ [] 0
  · intro P hP
    unfold chunk_text
    by_cases h : (text.length : Int) ≤ budget
    · simp only [h, if_true]
      have hPne : P ≠ [] := by
        rintro rfl
        exact ht ((sl_eq_nil_iff text).1 (by simpa using hP.1.symm))
      have := List.length_pos.2 hPne
      simp only [List.length_cons, List.length_nil]
      omega
    · simp only [h, if_false]
      rw [chunkAux_eq_parts, List.length_map]
      have := parts_min budget (splitlinesKeepends text).length (splitlinesKeepends text)
        le_rfl P [] 0 rfl hP.1 hP.2
      simpa using this

/-- Witness for C6 at a concrete input. -/
theorem chunk_text_minimal_witness :
    ((0 : Int) < 5 ∧ "ab\ncd\nef".data ≠ []) ∧
      (ValidPartition 5 "ab\ncd\nef".data (chunkParts "ab\ncd\nef".data 5) ∧
        chunk_text "ab\ncd\nef".data 5 = (chunkParts "ab\ncd\nef".data 5).map List.flatten ∧
        ∀ P, ValidPartition 5 "ab\ncd\nef".data P →
          (chunk_text "ab\ncd\nef".data 5).length ≤ P.length) :=
  ⟨⟨by decide, by decide⟩, chunk_text_minimal "ab\ncd\nef".data 5 (by decide) (by decide)⟩

/-! ### Stripping and joining -/

theorem dropWhile_head_not (p : Char → Bool) (l : List Char) (x : Char)
    (h : (l.dropWhile p).head? = some x) : p x = false := by
  induction l with
  | nil => simp at h
  | cons c r ih =>
    by_cases hc : p c
    · rw [List.dropWhile_cons, if_pos hc] at h
      exact ih h
    · rw [List.dropWhile_cons, if_neg hc] at h
      simp only [List.head?_cons, Option.some_inj] at h
      subst h
      simpa using hc

theorem dropWhile_append_stop (p : Char → Bool) (x : Char) (hx : p x = false)
    (ys zs : List Char) : (ys ++ x :: zs).dropWhile p = ys.dropWhile p ++ x :: zs := by
  induction ys with
  | nil => simp [List.dropWhile_cons, hx]
  | cons y ys ih =>
    by_cases hy : p y
    · simpa [List.dropWhile_cons, hy] using ih
    · simp [List.dropWhile_cons, hy]

theorem pyRStrip_nil : pyRStrip [] = [] := rfl

theorem pyRStrip_append (a b : List Char) (x : Char) (hx : isPySpace x = false) :
    pyRStrip ((a ++ (x :: [])) ++ b) = (a ++ (x :: [])) ++ pyRStrip b := by
  unfold pyRStrip
  have h1 : ((a ++ (x :: [])) ++ b).reverse = b.reverse ++ x :: a.reverse := by simp
  rw [h1, dropWhile_append_stop isPySpace x hx b.reverse a.reverse]
  simp

theorem pyRStrip_getLast (l : List Char) (x : Char) (h : (pyRStrip l).getLast? = some x) :
    isPySpace x = false := by
  unfold pyRStrip at h
  rw [List.getLast?_reverse] at h
  exact dropWhile_head_not isPySpace l.reverse x h

/-- `pyRStrip l` is a prefix of `l`; the rest is the stripped space suffix. -/
theorem pyRStrip_decomp (l : List Char) :
    l = pyRStrip l ++ (l.reverse.takeWhile isPySpace).reverse := by
  unfold pyRStrip
  conv_lhs => rw [← List.reverse_reverse l,
    ← List.takeWhile_append_dropWhile isPySpace l.reverse]
  rw [List.reverse_append]

theorem pyLStrip_of_head (l : List Char) (c : Char) (hc : isPySpace c = false) :
    pyLStrip (c :: l) = c :: l := by
  simp [pyLStrip, List.dropWhile_cons, hc]

theorem pyRStrip_of_getLast (l : List Char) (x : Char) (hl : l.getLast? = some x)
    (hx : isPySpace x = false) : pyRStrip l = l := by
  unfold pyRStrip
  have hrev : l.reverse = x :: l.reverse.tail := by
    apply List.eq_cons_of_mem_head?
    rw [List.head?_reverse]
    simp [hl]
  rw [hrev, List.dropWhile_cons, if_neg (by simp [hx]), ← hrev, List.reverse_reverse]

/-- A list whose first and last characters are not whitespace is unchanged
by `pyStrip`. -/
theorem pyStrip_noop (l : List Char) (c d : Char) (hhead : l.head? = some c)
    (hc : isPySpace c = false) (hlast : l.getLast? = some d) (hd : isPySpace d = false) :
    pyStrip l = l := by
  have hl : l = c :: l.tail := List.eq_cons_of_mem_head? (by simp [hhead])
  unfold pyStrip
  rw [hl, pyLStrip_of_head _ c hc, ← hl]
  exact pyRStrip_of_getLast l d hlast hd

theorem pyStrip_nil : pyStrip [] = [] := rfl

/-- `pyStrip` is idempotent. -/
theorem pyStrip_idem (l : List Char) : pyStrip (pyStrip l) = pyStrip l := by
  cases h : pyStrip l with
  | nil => rfl
  | cons c t =>
    have hhead : (pyStrip l).head? = some c := by rw [h]; rfl
    have hc : isPySpace c = false := by
      unfold pyStrip at hhead
      have hpre := pyRStrip_decomp (pyLStrip l)
      have : (pyLStrip l).head? = some c := by
        rw [hpre]
        rcases hx : pyRStrip (pyLStrip l) with _ | ⟨y, ys⟩
        · rw [hx] at hhead; simp at hhead
        · rw [hx] at hhead
          simp only [List.head?_cons, Option.some_inj] at hhead
          subst hhead
          simp
      exact dropWhile_head_not isPySpace l c this
    obtain ⟨d, hd⟩ : ∃ d, (pyStrip l).getLast? = some d := by
      rw [h]
      exact ⟨(c :: t).getLast (by simp), List.getLast?_eq_getLast _ _⟩
    have hdns : isPySpace d = false := pyRStrip_getLast (pyLStrip l) d hd
    rw [← h]
    exact pyStrip_noop (pyStrip l) c d hhead hc hd hdns

theorem joinSep_cons_cons (sep x y : List Char) (rest : List (List Char)) :
    joinSep sep (x :: y :: rest) = x ++ (sep ++ joinSep sep (y :: rest)) := by
  simp [joinSep]

theorem joinSep_head (sep : List Char) (s : List Char) (ss : List (List Char)) (hs : s ≠ []) :
    (joinSep sep (s :: ss)).head? = s.head? := by
  cases ss with
  | nil => rfl
  | cons y rest =>
    rw [joinSep_cons_cons]
    exact List.head?_append_of_ne_nil s hs

theorem mem_of_getLast?_eq : ∀ (l : List (List Char)) (a : List Char),
    l.getLast? = some a → a ∈ l := by
  intro l
  induction l with
  | nil => intro a h; simp at h
  | cons x xs ih =>
    intro a h
    cases xs with
    | nil =>
      simp only [List.getLast?_singleton, Option.some_inj] at h
      subst h
      simp
    | cons y ys =>
      rw [List.getLast?_cons_cons] at h
      exact List.mem_cons_of_mem _ (ih a h)

theorem joinSep_getLast (sep : List Char) :
    ∀ (ss : List (List Char)) (s : List Char), (∀ u ∈ ss, u ≠ []) →
      ss.getLast? = some s → (joinSep sep ss).getLast? = s.getLast? := by
  intro ss
  induction ss with
  | nil => intro s _ h; simp at h
  | cons y ss' ih =>
    intro s hne hlast
    cases ss' with
    | nil =>
      simp only [List.getLast?_singleton, Option.some_inj] at hlast
      subst hlast
      rfl
    | cons z ss'' =>
      rw [List.getLast?_cons_cons] at hlast
      have hIH := ih s (fun u hu => hne u (List.mem_cons_of_mem _ hu)) hlast
      have hsne : s ≠ [] := hne s (List.mem_cons_of_mem _ (mem_of_getLast?_eq _ s hlast))
      have hJ : joinSep sep (z :: ss'') ≠ [] := by
        intro hcon
        rw [hcon] at hIH
        simp only [List.getLast?_nil] at hIH
        exact hsne (List.getLast?_eq_none_iff.1 hIH.symm)
      have h2 : sep ++ joinSep sep (z :: ss'') ≠ [] :=
        fun hcon => hJ (List.append_eq_nil.1 hcon).2
      rw [joinSep_cons_cons]
      rw [List.getLast?_append_of_ne_nil y h2, List.getLast?_append_of_ne_nil sep hJ, hIH]

/-! ### The labeled sections of the reassembly -/

theorem pyStrip_bracket (mid out : List Char) :
    pyStrip ((('[' :: mid) ++ (']' :: [])) ++ ('\n' :: out)) =
      (('[' :: mid) ++ (']' :: [])) ++ pyRStrip ('\n' :: out) := by
  unfold pyStrip
  have h1 : pyLStrip ((('[' :: mid) ++ (']' :: [])) ++ ('\n' :: out)) =
      (('[' :: mid) ++ (']' :: [])) ++ ('\n' :: out) := by
    have := pyLStrip_of_head ((mid ++ (']' :: [])) ++ ('\n' :: out)) '[' (by decide)
    simpa using this
  rw [h1]
  exact pyRStrip_append ('[' :: mid) ('\n' :: out) ']' (by decide)

/-- Closed form of one labeled section: the leading strip is a no-op (the
marker starts with a bracket) and the trailing strip never eats into the
marker (its last character is the closing bracket). -/
theorem section_closed (i n : Nat) (out : List Char) :
    pyStrip (partLabel i n ++ out) = partLabelCore i n ++ pyRStrip ('\n' :: out) := by
  have hmid : partLabelCore i n =
      ('[' :: ('파' :: '트' :: ' ' :: Nat.toDigits 10 i ++ ('/' :: Nat.toDigits 10 n)))
        ++ (']' :: []) := by
    simp [partLabelCore]
  have hshape : partLabel i n ++ out =
      (('[' :: ('파' :: '트' :: ' ' :: Nat.toDigits 10 i ++ ('/' :: Nat.toDigits 10 n)))
        ++ (']' :: [])) ++ ('\n' :: out) := by
    simp [partLabel, partLabelCore]
  rw [hshape, pyStrip_bracket, ← hmid]

theorem section_ne_nil (i n : Nat) (r : List Char) : partLabelCore i n ++ r ≠ [] := by
  simp [partLabelCore]

theorem section_head (i n : Nat) (r : List Char) :
    (partLabelCore i n ++ r).head? = some '[' := by
  simp [partLabelCore]

theorem section_getLast (i n : Nat) (out : List Char) :
    ∃ d, (partLabelCore i n ++ pyRStrip ('\n' :: out)).getLast? = some d ∧
      isPySpace d = false := by
  cases hx : pyRStrip ('\n' :: out) with
  | nil =>
    refine ⟨']', ?_, by decide⟩
    rw [List.append_nil, show partLabelCore i n =
        (('[' :: '파' :: '트' :: ' ' :: Nat.toDigits 10 i) ++ ('/' :: Nat.toDigits 10 n))
          ++ (']' :: []) from by simp [partLabelCore]]
    exact List.getLast?_concat _
  | cons y ys =>
    have hlast : (y :: ys).getLast? = some ((y :: ys).getLast (by simp)) :=
      List.getLast?_eq_getLast _ _
    refine ⟨(y :: ys).getLast (by simp), ?_, ?_⟩
    · rw [List.getLast?_append_of_ne_nil _ (by simp)]
      exact hlast
    · apply pyRStrip_getLast ('\n' :: out)
      rw [hx]
      exact hlast

/-- Closed form of the whole multi-chunk reassembly: with more than one
chunk every labeled section is non-empty (the empty-string filter drops
nothing) and the final strip is a no-op, so the result is exactly the
stripped labeled sections joined by a blank line. -/
theorem reassemble_closed (outputs : List (List Char)) (h : 1 < outputs.length) :
    reassemble outputs =
      joinSep ('\n' :: '\n' :: [])
        (outputs.enum.map fun p =>
          partLabelCore (p.1 + 1) outputs.length ++ pyRStrip ('\n' :: p.2)) := by
  have hsec : (outputs.enum.map fun p =>
      if 1 < outputs.length then pyStrip (partLabel (p.1 + 1) outputs.length ++ p.2)
      else pyStrip p.2) =
      outputs.enum.map fun p =>
        partLabelCore (p.1 + 1) outputs.length ++ pyRStrip ('\n' :: p.2) := by
    apply List.map_congr_left
    intro p _
    rw [if_pos h, section_closed]
  unfold reassemble
  rw [hsec]
  rw [List.filter_eq_self.2 (by
    intro a ha
    obtain ⟨p, hp, rfl⟩ := List.mem_map.1 ha
    simpa [List.isEmpty_iff] using section_ne_nil (p.1 + 1) outputs.length _)]
  set ss := outputs.enum.map fun p =>
    partLabelCore (p.1 + 1) outputs.length ++ pyRStrip ('\n' :: p.2) with hss
  have hlenss : ss.length = outputs.length := by
    rw [hss, List.length_map, List.enum_length]
  obtain ⟨s1, ss', hcons⟩ : ∃ s1 ss', ss = s1 :: ss' := by
    cases hs : ss with
    | nil => rw [hs] at hlenss; simp at hlenss; omega
    | cons a b => exact ⟨a, b, rfl⟩
  have hmemprop : ∀ s ∈ ss, s.head? = some '[' ∧
      ∃ d, s.getLast? = some d ∧ isPySpace d = false := by
    intro s hs
    rw [hss] at hs
    obtain ⟨p, hp, rfl⟩ := List.mem_map.1 hs
    exact ⟨section_head _ _ _, section_getLast _ _ _⟩
  obtain ⟨slast, hslast⟩ : ∃ s, ss.getLast? = some s := by
    rw [hcons]
    cases hs : (s1 :: ss').getLast? with
    | none => exact absurd (List.getLast?_eq_none_iff.1 hs) (by simp)
    | some a => exact ⟨a, rfl⟩
  have hs1 := hmemprop s1 (by rw [hcons]; simp)
  have hsl := hmemprop slast (mem_of_getLast?_eq _ _ hslast)
  obtain ⟨d, hd, hdns⟩ := hsl.2
  have hs1ne : s1 ≠ [] := by
    intro hcon
    rw [hcon] at hs1
    simp at hs1
  have hallne : ∀ u ∈ ss, u ≠ [] := by
    intro u hu hcon
    have := (hmemprop u hu).1
    rw [hcon] at this
    simp at this
  apply pyStrip_noop _ '[' d
  · rw [hcons, joinSep_head _ _ _ hs1ne]
    exact hs1.1
  · exact by decide
  · rw [joinSep_getLast _ ss slast hallne hslast]
    exact hd
  · exact hdns

theorem joinSep_mem_within (sep : List Char) :
    ∀ (ss : List (List Char)) (s : List Char), s ∈ ss → List.IsInfix s (joinSep sep ss) := by
  intro ss
  induction ss with
  | nil => intro s h; simp at h
  | cons y ss' ih =>
    intro s hs
    rcases List.mem_cons.1 hs with rfl | hs'
    · cases ss' with
      | nil => exact ⟨[], [], by simp [joinSep]⟩
      | cons z rest =>
        rw [joinSep_cons_cons]
        exact ⟨[], sep ++ joinSep sep (z :: rest), by simp⟩
    · cases ss' with
      | nil => simp at hs'
      | cons z rest =>
        rw [joinSep_cons_cons]
        exact (ih s hs').trans ⟨y ++ sep, [], by simp⟩

/-- `run_text_job` is the reassembly of the per-chunk transformation
outputs of the chunks of the text. -/
theorem run_text_job_eq (transform : List Char → List Char) (text : List Char) :
    run_text_job transform text = reassemble ((chunk_text text 8000).map transform) := by
  unfold run_text_job reassemble
  rw [List.enum_map, List.map_map, List.length_map]
  have hmap : List.map
      ((fun p => if 1 < (chunk_text text 8000).length then
          pyStrip (partLabel (p.1 + 1) (chunk_text text 8000).length ++ p.2)
        else pyStrip p.2) ∘ Prod.map id transform) (chunk_text text 8000).enum =
      List.map (fun p => if 1 < (chunk_text text 8000).length then
          pyStrip (partLabel (p.1 + 1) (chunk_text text 8000).length ++ transform p.2)
        else pyStrip (transform p.2)) (chunk_text text 8000).enum := by
    apply List.map_congr_left
    intro p _
    simp [Prod.map]
  rw [hmap]

/-! ### Claims about the reassembly -/

/-- Counterexample to claim C4 as stated: for the 3-chunk job with outputs
`["x", "", "y"]` the empty second output is not dropped from the final
concatenation — its positional marker `"[파트 2/3]"` remains as a bare
section between the other two. -/
theorem reassemble_drop_counterexample :
    reassemble ["x".data, "".data, "y".data] =
        "[파트 1/3]\nx\n\n[파트 2/3]\n\n[파트 3/3]\ny".data ∧
      List.IsInfix "[파트 2/3]".data (reassemble ["x".data, "".data, "y".data]) :=
  ⟨by decide, by decide⟩

/-- Claim C4 (amended): in a multi-chunk job no labeled section is ever
dropped — after labeling, every section is non-empty, so the positional
marker of every chunk (also a chunk whose transformation returned the empty
string) still occurs in the final result; the empty output leaves a bare
marker, not nothing. -/
theorem reassemble_empty_kept (outputs : List (List Char)) (h : 1 < outputs.length)
    (p : Nat × List Char) (hp : p ∈ outputs.enum) :
    List.IsInfix (partLabelCore (p.1 + 1) outputs.length) (reassemble outputs) := by
  rw [reassemble_closed outputs h]
  have hmem : partLabelCore (p.1 + 1) outputs.length ++ pyRStrip ('\n' :: p.2) ∈
      outputs.enum.map fun q =>
        partLabelCore (q.1 + 1) outputs.length ++ pyRStrip ('\n' :: q.2) :=
    List.mem_map_of_mem _ hp
  have hpre : List.IsInfix (partLabelCore (p.1 + 1) outputs.length)
      (partLabelCore (p.1 + 1) outputs.length ++ pyRStrip ('\n' :: p.2)) :=
    ⟨[], pyRStrip ('\n' :: p.2), by simp⟩
  exact List.IsInfix.trans hpre (joinSep_mem_within _ _ _ hmem)

/-- Witness for the amended C4 at a concrete input: the marker of the empty
second output survives in `reassemble ["x", "", "y"]`. -/
theorem reassemble_empty_kept_witness :
    (1 < (["x".data, "".data, "y".data] : List (List Char)).length ∧
        ((1 : Nat), ("".data : List Char)) ∈
          (["x".data, "".data, "y".data] : List (List Char)).enum) ∧
      List.IsInfix (partLabelCore 2 3) (reassemble ["x".data, "".data, "y".data]) :=
  ⟨⟨by decide, by decide⟩,
    reassemble_empty_kept ["x".data, "".data, "y".data] (by decide) (1, "".data) (by decide)⟩

/-- Claim C8: with more than one chunk, the reassembly prefixes each
(trailing-stripped) output with its positional marker `"[파트 i/n]"` and
joins the labeled sections in chunk order, separated by a blank line. -/
theorem reassemble_markers (outputs : List (List Char)) (h : 1 < outputs.length) :
    reassemble outputs =
      joinSep ('\n' :: '\n' :: [])
        (outputs.enum.map fun p =>
          partLabelCore (p.1 + 1) outputs.length ++ pyRStrip ('\n' :: p.2)) :=
  reassemble_closed outputs h

/-- Witness for C8 at a concrete input. -/
theorem reassemble_markers_witness :
    1 < (["x".data, "y".data, "z".data] : List (List Char)).length ∧
      reassemble ["x".data, "y".data, "z".data] =
        joinSep ('\n' :: '\n' :: [])
          ((["x".data, "y".data, "z".data] : List (List Char)).enum.map fun p =>
            partLabelCore (p.1 + 1)
                (["x".data, "y".data, "z".data] : List (List Char)).length ++
              pyRStrip ('\n' :: p.2)) :=
  ⟨by decide, reassemble_markers ["x".data, "y".data, "z".data] (by decide)⟩

/-- Claim C9: with exactly one chunk, the reassembly returns the single
transformed output stripped of surrounding whitespace, with no positional
marker added. -/
theorem reassemble_single (out : List Char) : reassemble [out] = pyStrip out := by
  have hn : ¬(1 < ([out] : List (List Char)).length) := by simp
  have hsec : (([out] : List (List Char)).enum.map fun p =>
      if 1 < ([out] : List (List Char)).length then
        pyStrip (partLabel (p.1 + 1) ([out] : List (List Char)).length ++ p.2)
      else pyStrip p.2) = [pyStrip out] := by
    rw [show ([out] : List (List Char)).enum = [((0 : Nat), out)] from rfl]
    simp [hn]
  unfold reassemble
  rw [hsec]
  by_cases hph : pyStrip out = []
  · rw [show ([pyStrip out].filter fun o => !o.isEmpty) = [] from by
      simp [List.isEmpty_iff, hph]]
    rw [hph]
    rfl
  · rw [show ([pyStrip out].filter fun o => !o.isEmpty) = [pyStrip out] from by
      simp [List.isEmpty_iff, hph]]
    exact pyStrip_idem out

-- sanity checks (concrete behaviour of the embedding)
example : splitlinesKeepends "ab\ncd\nef".data = ["ab\n".data, "cd\n".data, "ef".data] := by decide
example : splitlinesKeepends "a\r\nb\rc".data = ["a\r\n".data, "b\r".data, "c".data] := by decide
example : chunk_text "ab\ncd\nef".data 5 = ["ab\n".data, "cd\nef".data] := by decide
example : chunk_text "".data 100 = ["".data] := by decide
example : chunk_text "hello".data 100 = ["hello".data] := by decide
example : chunk_text "a\nb".data 0 = [['a', '\n'], ['b']] := by decide
example : chunk_text "a\nb".data (-1) = [['a', '\n'], ['b']] := by decide
example : pyStrip "  ab c \n".data = "ab c".data := by decide
example : reassemble ["x".data] = "x".data := by decide
example : reassemble [" x \n".data] = "x".data := by decide
example :
    reassemble ["x".data, "".data, "y".data] =
      "[파트 1/3]\nx\n\n[파트 2/3]\n\n[파트 3/3]\ny".data := by decide

end TranslatorApp
